import Mathlib

/-!
Verification development for the Wavemark audio-watermarking repository.

The repository sources under consideration contain only the Python binding
layer (tests, an example script and the package initializer); the numeric
watermark core (payload codec, signal transform, encoder, decoder,
confidence scorer) is declared by the specification but absent from the
sources.  Those components are therefore modelled here directly from the
specification text; each such definition carries a doc comment starting
with "Modelled from the spec:".  The Python binding layer is embedded from
the actual source files.

All sample amplitudes are rationals, payloads are byte lists, bit frames
are boolean lists.  Everything is executable.
-/

namespace Wavemark

/-- Error taxonomy of the encoder-side API.
Modelled from the spec: section 7 lists `InputTooShort`, `InputTooLong`,
`PayloadTooLong` (caller errors) and `MalformedWaveform` (defensive). -/
inductive WatermarkError where
  | InputTooShort
  | InputTooLong
  | PayloadTooLong
  | MalformedWaveform
deriving DecidableEq, Repr

/-- Error taxonomy of the payload decoder.
Modelled from the spec: `BitError::ChecksumMismatch` is the only decoder
bit error, a soft failure. -/
inductive BitError where
  | ChecksumMismatch
deriving DecidableEq, Repr

/-- Decidable equality of call results (needed to evaluate the API on
concrete inputs). -/
instance {ε α : Type} [DecidableEq ε] [DecidableEq α] : DecidableEq (Except ε α) := fun a b =>
  match a, b with
  | .ok x, .ok y =>
      if h : x = y then isTrue (by rw [h]) else isFalse (fun hc => h (by injection hc))
  | .error e, .error f =>
      if h : e = f then isTrue (by rw [h]) else isFalse (fun hc => h (by injection hc))
  | .ok _, .error _ => isFalse (fun hc => Except.noConfusion hc)
  | .error _, .ok _ => isFalse (fun hc => Except.noConfusion hc)

/-- Bytes of an opaque payload. -/
abbrev Byte : Type := Fin 256

/-- Opaque byte payload supplied by the caller. -/
abbrev Payload : Type := List Byte

/-- Modelled from the spec: the fixed maximum payload length in bytes
("opaque byte sequence of bounded length (fixed maximum, e.g. 128 bits)");
this model fixes the maximum at 4 bytes = 32 bits to keep concrete frames
small. -/
def MAX_LEN : ℕ := 4

namespace PayloadCodec

/-- The eight bits of one byte, least significant first. -/
def byteToBits (b : Byte) : List Bool :=
  [b.val.testBit 0, b.val.testBit 1, b.val.testBit 2, b.val.testBit 3,
   b.val.testBit 4, b.val.testBit 5, b.val.testBit 6, b.val.testBit 7]

/-- Serialise a byte list into a bit list, eight bits per byte. -/
def bytesToBits (bs : List Byte) : List Bool :=
  (bs.map byteToBits).flatten

/-- Natural number denoted by a bit list, least significant bit first. -/
def natOfBits (l : List Bool) : ℕ :=
  l.foldr (fun b acc => (if b then 1 else 0) + 2 * acc) 0

/-- Reassemble one byte from a bit list (least significant bit first). -/
def bitsToByte (l : List Bool) : Byte :=
  ⟨natOfBits l % 256, Nat.mod_lt _ (by norm_num)⟩

/-- Split a bit list into consecutive groups of eight, dropping a ragged tail. -/
def chunk8 : List Bool → List (List Bool)
  | b0 :: b1 :: b2 :: b3 :: b4 :: b5 :: b6 :: b7 :: rest =>
      [b0, b1, b2, b3, b4, b5, b6, b7] :: chunk8 rest
  | _ => []

/-- Deserialise a bit list into bytes, eight bits per byte. -/
def bitsToBytes (l : List Bool) : List Byte :=
  (chunk8 l).map bitsToByte

/-- Modelled from the spec: the repetition factor of the block code
("repetition+majority vote" branch of the FEC design note). -/
def repFactor : ℕ := 3

/-- Repetition coding: each bit emitted three times consecutively. -/
def rep3 : List Bool → List Bool
  | [] => []
  | b :: l => b :: b :: b :: rep3 l

/-- Split a bit list into consecutive groups of three, dropping a ragged tail. -/
def chunk3 : List Bool → List (List Bool)
  | a :: b :: c :: rest => [a, b, c] :: chunk3 rest
  | _ => []

/-- Majority vote over (the first three entries of) a bit group. -/
def maj (l : List Bool) : Bool :=
  (l.getD 0 false && l.getD 1 false) || (l.getD 0 false && l.getD 2 false) ||
    (l.getD 1 false && l.getD 2 false)

/-- Majority-vote decoding of the repetition code. -/
def majorityDecode (l : List Bool) : List Bool :=
  (chunk3 l).map maj

/-- Number of positions (over the common length) where two bit lists differ. -/
def flips : List Bool → List Bool → ℕ
  | a :: l, b :: m => (if a = b then 0 else 1) + flips l m
  | _, _ => 0

/-- Modelled from the spec: the length byte prefixed to the payload so the
fixed-size frame can carry payloads shorter than MAX_LEN. -/
def lenByteOf (p : Payload) : Byte :=
  ⟨p.length % 256, Nat.mod_lt _ (by norm_num)⟩

/-- Zero-pad a payload on the right to exactly MAX_LEN bytes. -/
def padTo (p : Payload) : Payload :=
  p ++ List.replicate (MAX_LEN - p.length) 0

/-- Modelled from the spec: the frame checksum ("FEC(Payload) ++ checksum"),
here the byte sum modulo 256 of the length byte and the padded payload. -/
def checksum (bs : List Byte) : Byte :=
  bs.foldl (fun a b => a + b) 0

/-- The raw (pre-FEC) byte frame: length byte, padded payload, checksum. -/
def baseBytes (p : Payload) : List Byte :=
  lenByteOf p :: (padTo p ++ [checksum (lenByteOf p :: padTo p)])

/-- Modelled from the spec: FrameBits, the fixed-length bit sequence
"FEC(Payload) ++ checksum" produced once per embedding pass:
the base byte frame serialised to bits and repetition-coded. -/
def frameBitsOf (p : Payload) : List Bool :=
  rep3 (bytesToBits (baseBytes p))

/-- Length in bits of every well-formed FrameBits frame. -/
def frameLen : ℕ := 3 * (8 * (MAX_LEN + 2))

/-- Modelled from the spec: `encode(payload) -> FrameBits`, deterministic,
failing with `PayloadTooLong` when the payload exceeds MAX_LEN. -/
def encode (p : Payload) : Except WatermarkError (List Bool) :=
  if p.length ≤ MAX_LEN then .ok (frameBitsOf p) else .error .PayloadTooLong

/-- Modelled from the spec: full decoding of a received FrameBits frame,
returning the payload together with the observed residual bit-error rate.
Majority-vote corrects the repetition code, then the checksum and the
length byte are validated; any failure is the soft `ChecksumMismatch`. -/
def decodeFull (bits : List Bool) : Except BitError (Payload × ℚ) :=
  let base := majorityDecode bits
  let ber : ℚ := (flips bits (rep3 base) : ℚ) / (bits.length : ℚ)
  match bitsToBytes base with
  | [] => .error .ChecksumMismatch
  | lb :: rest =>
      if rest.length = MAX_LEN + 1 ∧ lb.val ≤ MAX_LEN ∧
          rest.getD MAX_LEN 0 = checksum (lb :: rest.take MAX_LEN) then
        .ok ((rest.take MAX_LEN).take lb.val, ber)
      else .error .ChecksumMismatch

/-- Modelled from the spec: `decode(bits: FrameBits) -> Result<payload, BitError>`. -/
def decode (bits : List Bool) : Except BitError Payload :=
  (decodeFull bits).map Prod.fst

/-- Guaranteed correction capacity of the repetition-3 code under arbitrary
(adversarial) flip placement: one flipped bit per frame. -/
def correctableCount : ℕ := 1

/-- The configured guaranteed-correctable error fraction of the FEC. -/
def correctableFraction : ℚ := (correctableCount : ℚ) / (frameLen : ℚ)

end PayloadCodec

namespace ConfidenceScorer

/-- Clamp a rational into the unit interval. -/
def clamp01 (x : ℚ) : ℚ := min 1 (max 0 x)

/-- Modelled from the spec: the bit-error rate at which confidence reaches
zero, calibrated against the FEC guaranteed-correctable fraction so that
high confidence certifies a rate below that threshold. -/
def berCeiling : ℚ := PayloadCodec.correctableFraction

/-- Modelled from the spec: `score(correlation, bit_error_rate) -> float in
[0,1]`, a pure total function, monotonically increasing in correlation and
decreasing in bit-error rate: the product of the clamped correlation and
the clamped remaining error margin. -/
def score (correlation bitErrorRate : ℚ) : ℚ :=
  clamp01 correlation * clamp01 (1 - bitErrorRate / berCeiling)

end ConfidenceScorer

namespace SignalTransform

/-- Modelled from the spec: the fixed hop size of the windowed short-time
transform. -/
def hop : ℕ := 4

/-- Window length: two hops, so adjacent analysis windows overlap by half. -/
def win : ℕ := 8

/-- Triangular (Bartlett) analysis window; rising over the first hop,
falling over the second, so overlapping windows sum to one
(the constant-overlap-add constraint, with a rectangular synthesis
window as the complementary window). -/
def window (j : ℕ) : ℚ :=
  if j < hop then (j : ℚ) / (hop : ℚ) else ((win : ℚ) - (j : ℚ)) / (hop : ℚ)

/-- Sample access extended by zero outside the slice (used by the first,
partially out-of-range analysis window). -/
def sampleOrZero (xs : List ℚ) (i : ℤ) : ℚ :=
  if i < 0 then 0 else xs.getD i.toNat 0

/-- Transform coefficients: the windowed analysis frames together with the
original slice length (needed to invert exactly). -/
structure Coefficients where
  length : ℕ
  frames : List (List ℚ)
deriving DecidableEq, Repr

/-- The windowed analysis frame starting at sample `k * hop - hop`. -/
def frameCoeffs (xs : List ℚ) (k : ℕ) : List ℚ :=
  (List.range win).map
    (fun j => window j * sampleOrZero xs ((k : ℤ) * (hop : ℤ) + (j : ℤ) - (hop : ℤ)))

/-- Modelled from the spec: `forward(waveform_slice) -> coefficients`,
overlapping triangular-windowed analysis frames at a fixed hop. -/
def forward (xs : List ℚ) : Coefficients :=
  ⟨xs.length, (List.range (xs.length / hop + 2)).map (frameCoeffs xs)⟩

/-- Coefficient lookup, zero outside the stored frames. -/
def coeffAt (c : Coefficients) (k j : ℕ) : ℚ :=
  (c.frames.getD k []).getD j 0

/-- Modelled from the spec: `inverse(coefficients) -> waveform_slice` by
overlap-add with the rectangular synthesis window; each output sample is
covered by exactly the two adjacent analysis windows, so the overlap-add
sum has exactly those two terms. -/
def inverse (c : Coefficients) : List ℚ :=
  (List.range c.length).map
    (fun t => coeffAt c (t / hop + 1) (t % hop) + coeffAt c (t / hop) (t % hop + hop))

/-- Largest absolute sample difference between two slices. -/
def reconstructionError (a b : List ℚ) : ℚ :=
  ((a.zip b).map (fun pr => |pr.1 - pr.2|)).foldr max 0

/-- The fixed numeric tolerance of the round-trip contract. -/
def epsilon : ℚ := 1 / 1000000

end SignalTransform

/-- Modelled from the spec: a Waveform is an ordered sequence of sample
amplitudes tagged with a sample rate (single channel in this model). -/
structure Waveform where
  samples : List ℚ
  sampleRate : ℕ
deriving DecidableEq, Repr

/-- Modelled from the spec: the Waveform invariant — sample rate positive,
amplitudes within the normalized interval [-1, 1]. -/
abbrev wellFormed (w : Waveform) : Prop :=
  0 < w.sampleRate ∧ ∀ s ∈ w.samples, -1 ≤ s ∧ s ≤ 1

/-- Modelled from the spec: a Detection record
{payload, confidence in [0,1], sample_offset}. -/
structure Detection where
  payload : Payload
  confidence : ℚ
  sample_offset : ℕ
deriving DecidableEq, Repr

/-- Modelled from the spec: SyncCode, the constant, globally shared
pseudo-random chip sequence used to locate frame boundaries. -/
def syncCode : List Bool :=
  [true, false, true, true, false, false, true, false]

/-- Distance in samples between consecutive watermark chips. -/
def chipStride : ℕ := 2

/-- One sync repeat followed by one full FrameBits cycle. -/
def totalChips : ℕ := syncCode.length + PayloadCodec.frameLen

/-- Modelled from the spec: the minimum number of samples needed to carry
one full FrameBits cycle plus one SyncCode repeat. -/
def minSamples : ℕ := totalChips * chipStride

/-- Modelled from the spec: the defensive maximum-duration guard of §5. -/
def maxSamples : ℕ := 10000000

/-- Modelled from the spec: the minimum threshold floor of the
psychoacoustic mask profile (the masker "degrades gracefully (minimum
threshold floor) for silence"); the encoder scales it by the strength. -/
def maskFloor : ℚ := 1 / 10

/-- Amplitude of one embedded chip: sign carries the bit, magnitude is
`strength * maskFloor` (the per-frame mask profile simplified to its
guaranteed floor so that detection needs no access to the original). -/
def chipValue (strength : ℚ) (b : Bool) : ℚ :=
  if b then strength * maskFloor else -(strength * maskFloor)

/-- The full chip sequence of one embedding pass: SyncCode then FrameBits. -/
def allChips (p : Payload) : List Bool :=
  syncCode ++ PayloadCodec.frameBitsOf p

/-- Modelled from the spec: the sample-level effect of embedding — the
chips of the sync pattern and the frame bits are written as signed
perturbations at every `chipStride`-th sample starting at offset 0; all
other samples are untouched. -/
def embedSamples (xs : List ℚ) (p : Payload) (strength : ℚ) : List ℚ :=
  (List.range xs.length).map (fun t =>
    if t % chipStride = 0 ∧ t / chipStride < totalChips then
      chipValue strength ((allChips p).getD (t / chipStride) false)
    else xs.getD t 0)

/-- Modelled from the spec: `embed(waveform, payload, strength) ->
watermarked_waveform`, failing with `PayloadTooLong`, `InputTooShort`,
`InputTooLong` or `MalformedWaveform` per the error taxonomy, otherwise
returning a new watermarked Waveform at the same sample rate. -/
def embed (w : Waveform) (p : Payload) (strength : ℚ) : Except WatermarkError Waveform :=
  if MAX_LEN < p.length then .error .PayloadTooLong
  else if w.samples.length < minSamples then .error .InputTooShort
  else if maxSamples < w.samples.length then .error .InputTooLong
  else if wellFormed w then .ok ⟨embedSamples w.samples p strength, w.sampleRate⟩
  else .error .MalformedWaveform

/-- Sample access on a Waveform, zero past the end. -/
def sampleAt (w : Waveform) (t : ℕ) : ℚ := w.samples.getD t 0

/-- Hard-decision chip read: the sign of the sample. -/
def readChip (w : Waveform) (t : ℕ) : Bool := decide (0 < sampleAt w t)

/-- Number of agreeing positions of two chip sequences. -/
def matchCount (a b : List Bool) : ℕ :=
  (List.zipWith (fun x y => if x = y then (1 : ℕ) else 0) a b).sum

/-- Modelled from the spec: the minimum correlation threshold gating
candidate offsets in the decoder. -/
def minCorrelation : ℚ := 9 / 10

/-- The sync chips read at a candidate offset. -/
def syncBits (w : Waveform) (o : ℕ) : List Bool :=
  (List.range syncCode.length).map (fun k => readChip w (o + k * chipStride))

/-- Modelled from the spec: the normalized sliding cross-correlation of the
read chips against the fixed SyncCode at one candidate offset. -/
def syncCorr (w : Waveform) (o : ℕ) : ℚ :=
  (matchCount (syncBits w o) syncCode : ℚ) / (syncCode.length : ℚ)

/-- The frame chips read at a candidate offset, aligned after the sync. -/
def dataBits (w : Waveform) (o : ℕ) : List Bool :=
  (List.range PayloadCodec.frameLen).map
    (fun i => readChip w (o + (syncCode.length + i) * chipStride))

/-- Modelled from the spec: one decoder probe at a candidate sample offset:
correlate the sync chips, and when the normalized correlation clears the
threshold, extract the aligned frame bits, decode them, and on success
emit a Detection scored by the ConfidenceScorer. -/
def tryOffset (w : Waveform) (o : ℕ) : Option Detection :=
  if o + totalChips * chipStride ≤ w.samples.length then
    if minCorrelation ≤ syncCorr w o then
      match PayloadCodec.decodeFull (dataBits w o) with
      | .ok qb => some ⟨qb.1, ConfidenceScorer.score (syncCorr w o) qb.2, o⟩
      | .error _ => none
    else none
  else none

/-- All detections of a waveform: every candidate offset is probed in
order; failed probes contribute nothing. -/
def detections (w : Waveform) : List Detection :=
  (List.range w.samples.length).filterMap (tryOffset w)

/-- Modelled from the spec: `detect(waveform) -> sequence of Detection`
(possibly empty); a malformed waveform is the fatal `MalformedWaveform`
error, while absence of detections is the ordinary empty result. -/
def detect (w : Waveform) : Except WatermarkError (List Detection) :=
  if wellFormed w then .ok (detections w) else .error .MalformedWaveform

/-- Modelled from the spec: call-level semantics of `embed` over a store of
caller-owned waveforms, used to express that embedding has no side effect
beyond returning the new waveform: a successful call only appends the new
waveform; a failed call leaves the store untouched. -/
def embedCall (store : List Waveform) (i : ℕ) (p : Payload) (strength : ℚ) :
    List Waveform × Except WatermarkError ℕ :=
  match store[i]? with
  | none => (store, .error .MalformedWaveform)
  | some w =>
      match embed w p strength with
      | .ok wm => (store ++ [wm], .ok store.length)
      | .error e => (store, .error e)

namespace PyBindings

/-- Relative path of the comprehensive binding test file. -/
def fileTestComprehensive : String := "bindings/python/tests/test_comprehensive.py"

/-- Relative path of the basic binding test file. -/
def fileTestBasic : String := "bindings/python/tests/test_basic_functionality.py"

/-- Relative path of the example script. -/
def fileExample : String := "bindings/python/examples/basic_usage.py"

/-- Name of the module imported by the comprehensive tests. -/
def moduleWavemark : String := "wavemark"

/-- Name of the module imported by the basic test and the example. -/
def moduleWavemarkPython : String := "wavemark_python"

/-- Name of the greeting stub. -/
def nameHelloWorld : String := "hello_world"

/-- Name of the embedding entry point of the (absent) core. -/
def nameEmbed : String := "embed"

/-- Name of the detection entry point of the (absent) core. -/
def nameDetect : String := "detect"

/-- A reference from a Python source file to a function of the compiled
binding module: file, module, function name, number of arguments passed. -/
structure BindingRef where
  sourceFile : String
  moduleName : String
  functionName : String
  argCount : ℕ
deriving DecidableEq, Repr

/-- Transcribed from the Python sources: every reference to a binding
function appearing anywhere in the repository Python files.
`test_comprehensive.py` calls `wavemark.hello_world()`;
`test_basic_functionality.py` and `basic_usage.py` call
`wavemark_python.hello_world()`; `__init__.py` references no function by
name (it star-imports the extension). -/
def pythonBindingRefs : List BindingRef :=
  [⟨fileTestComprehensive, moduleWavemark, nameHelloWorld, 0⟩,
   ⟨fileTestBasic, moduleWavemarkPython, nameHelloWorld, 0⟩,
   ⟨fileExample, moduleWavemarkPython, nameHelloWorld, 0⟩]

/-- The constant string returned by the greeting stub. -/
def helloWorldMessage : String := "Hello from the Wavemark Python bindings!"

/-- Modelled from the spec: the zero-argument greeting stub `hello_world`
exported by the compiled Rust extension (the extension itself is not among
the sources; the tests assert its return value is one fixed string
containing the words transcribed below). -/
def hello_world (_u : Unit) : String := helloWorldMessage

/-- First word the tests require in the greeting. -/
def wavemarkWord : String := "Wavemark"

/-- Second word the tests require in the greeting. -/
def pythonWord : String := "Python"

/-- Third word the tests require in the greeting. -/
def bindingsWord : String := "bindings"

/-- Substring occurrence on strings, via character lists. -/
abbrev occursIn (sub s : String) : Prop := List.IsInfix sub.toList s.toList

/-- Attribute key `__version__` of the package. -/
def versionKey : String := "__version__"

/-- Version string assigned by the package initializer. -/
def versionValue : String := "0.1.0"

/-- Attribute key `__author__` of the package. -/
def authorKey : String := "__author__"

/-- Author string assigned by the package initializer. -/
def authorValue : String := "Wavemark Contributors"

/-- Attribute key `__description__` of the package. -/
def descriptionKey : String := "__description__"

/-- Description string assigned by the package initializer. -/
def descriptionValue : String := "Audio watermarking library for AI voice generators"

/-- A Python module namespace modelled as an association list from
attribute names to (opaque, here string-tagged) values; later entries
shadow earlier ones, as later Python assignments do. -/
abbrev PyAttrs : Type := List (String × String)

/-- A name is private for star-import purposes when it starts with an
underscore. -/
def isPrivateName (s : String) : Bool :=
  match s.toList with
  | c :: _ => c == '_'
  | [] => false

/-- Star-import semantics: `from .wavemark import *` binds every public
(non-underscore) attribute of the extension module. -/
def starImport (ext : PyAttrs) : PyAttrs :=
  ext.filter (fun a => !isPrivateName a.1)

/-- Transcribed from `python/wavemark/__init__.py`: the only definitions
the package file itself makes, in assignment order. -/
def ownDefinitions : PyAttrs :=
  [(versionKey, versionValue), (authorKey, authorValue),
   (descriptionKey, descriptionValue)]

/-- Transcribed from `python/wavemark/__init__.py`: the package namespace
after executing the initializer on a given extension module — the
star-import of the extension followed by the three metadata assignments. -/
def packageAttrs (ext : PyAttrs) : PyAttrs :=
  starImport ext ++ ownDefinitions

/-- Attribute lookup with Python shadowing: the latest binding wins. -/
def getAttr (attrs : PyAttrs) (n : String) : Option String :=
  (attrs.reverse.find? (fun a => a.1 == n)).map Prod.snd

end PyBindings

/-- A silent waveform of exactly the minimum duration, used as a concrete
well-formed unwatermarked input. -/
def silenceWaveform : Waveform := ⟨List.replicate minSamples 0, 44100⟩

/-- A malformed waveform: one sample outside the normalized interval. -/
def badWaveform : Waveform := ⟨[2], 44100⟩

namespace PayloadCodec

theorem rep3_length (l : List Bool) : (rep3 l).length = 3 * l.length := by
  induction l with
  | nil => simp [rep3]
  | cons b l ih => simp [rep3, ih]; ring

theorem maj_same (b : Bool) : maj [b, b, b] = b := by cases b <;> rfl

theorem majorityDecode_rep3 (l : List Bool) : majorityDecode (rep3 l) = l := by
  induction l with
  | nil => rfl
  | cons b l ih =>
      show maj [b, b, b] :: majorityDecode (rep3 l) = b :: l
      rw [maj_same, ih]

theorem flips_self (l : List Bool) : flips l l = 0 := by
  induction l with
  | nil => rfl
  | cons b l ih => simp [flips, ih]

theorem maj_of_flips_le_one (x a b c : Bool) (h : flips [a, b, c] [x, x, x] ≤ 1) :
    maj [a, b, c] = x := by
  revert h; revert x a b c; decide

theorem majorityDecode_of_flips_le (l : List Bool) :
    ∀ bits : List Bool, bits.length = (rep3 l).length → flips bits (rep3 l) ≤ 1 →
      majorityDecode bits = l := by
  induction l with
  | nil => intro bits hlen _; simp [rep3] at hlen; simp [hlen, majorityDecode, chunk3]
  | cons x l ih =>
      intro bits hlen hfl
      rw [rep3_length] at hlen
      match bits with
      | [] => simp only [List.length_nil, List.length_cons] at hlen; omega
      | [a] => simp only [List.length_cons, List.length_nil] at hlen; omega
      | [a, b] => simp only [List.length_cons, List.length_nil] at hlen; omega
      | a :: b :: c :: rest =>
          have hlen2 : rest.length = (rep3 l).length := by
            rw [rep3_length]
            simp only [List.length_cons] at hlen ⊢
            omega
          have hsplit : flips (a :: b :: c :: rest) (rep3 (x :: l)) =
              flips [a, b, c] [x, x, x] + flips rest (rep3 l) := by
            simp [rep3, flips]; ring
          rw [hsplit] at hfl
          have h1 : flips [a, b, c] [x, x, x] ≤ 1 := by omega
          have h2 : flips rest (rep3 l) ≤ 1 := by omega
          show maj [a, b, c] :: majorityDecode rest = x :: l
          rw [maj_of_flips_le_one x a b c h1, ih rest hlen2 h2]

set_option maxRecDepth 16384 in
theorem bitsToByte_byteToBits (b : Byte) : bitsToByte (byteToBits b) = b := by
  revert b; decide

theorem chunk8_byteToBits_append (b : Byte) (r : List Bool) :
    chunk8 (byteToBits b ++ r) = byteToBits b :: chunk8 r := rfl

theorem bitsToBytes_bytesToBits (bs : List Byte) : bitsToBytes (bytesToBits bs) = bs := by
  induction bs with
  | nil => rfl
  | cons b bs ih =>
      have hflat : bytesToBits (b :: bs) = byteToBits b ++ bytesToBits bs := by
        simp [bytesToBits]
      rw [bitsToBytes, hflat, chunk8_byteToBits_append, List.map_cons,
        bitsToByte_byteToBits]
      exact congrArg _ ih

theorem byteToBits_length (b : Byte) : (byteToBits b).length = 8 := rfl

theorem bytesToBits_length (bs : List Byte) : (bytesToBits bs).length = 8 * bs.length := by
  induction bs with
  | nil => rfl
  | cons b bs ih =>
      have hflat : bytesToBits (b :: bs) = byteToBits b ++ bytesToBits bs := by
        simp [bytesToBits]
      rw [hflat]
      simp [byteToBits_length, ih]
      ring

theorem padTo_length (p : Payload) (hp : p.length ≤ MAX_LEN) :
    (padTo p).length = MAX_LEN := by
  simp [padTo]; omega

theorem baseBytes_length (p : Payload) (hp : p.length ≤ MAX_LEN) :
    (baseBytes p).length = MAX_LEN + 2 := by
  simp [baseBytes, padTo_length p hp]

theorem frameBitsOf_length (p : Payload) (hp : p.length ≤ MAX_LEN) :
    (frameBitsOf p).length = frameLen := by
  rw [frameBitsOf, rep3_length, bytesToBits_length, baseBytes_length p hp]
  rfl

theorem getD_append_cons {α : Type} (a : List α) (c : α) (r : List α) (d : α) :
    (a ++ (c :: r)).getD a.length d = c := by
  induction a with
  | nil => rfl
  | cons x a ih => simpa using ih

theorem lenByteOf_val (p : Payload) (hp : p.length ≤ MAX_LEN) :
    (lenByteOf p).val = p.length := by
  simp only [lenByteOf]
  exact Nat.mod_eq_of_lt (by unfold MAX_LEN at hp; omega)

theorem take_padTo (p : Payload) (hp : p.length ≤ MAX_LEN) (c : Byte) :
    ((padTo p ++ [c]).take MAX_LEN) = padTo p := by
  conv_lhs => rw [← padTo_length p hp]
  exact List.take_left _ _

theorem decodeFull_of_majority (p : Payload) (hp : p.length ≤ MAX_LEN) (bits : List Bool)
    (hmaj : majorityDecode bits = bytesToBits (baseBytes p)) :
    decodeFull bits =
      .ok (p, (flips bits (rep3 (bytesToBits (baseBytes p))) : ℚ) / (bits.length : ℚ)) := by
  have hgetD : (padTo p ++ [checksum (lenByteOf p :: padTo p)]).getD MAX_LEN 0 =
      checksum (lenByteOf p :: padTo p) := by
    conv_lhs => rw [← padTo_length p hp]
    exact getD_append_cons _ _ _ _
  have hlen1 : (padTo p ++ [checksum (lenByteOf p :: padTo p)]).length = MAX_LEN + 1 := by
    simp [padTo_length p hp]
  have htakep : (padTo p).take p.length = p := by
    conv_lhs => rw [padTo]
    exact List.take_left _ _
  simp only [decodeFull, hmaj, bitsToBytes_bytesToBits, baseBytes]
  rw [if_pos]
  · rw [take_padTo p hp, lenByteOf_val p hp, htakep]
  · refine ⟨hlen1, ?_, ?_⟩
    · rw [lenByteOf_val p hp]; exact hp
    · rw [hgetD, take_padTo p hp]

theorem decodeFull_frameBitsOf (p : Payload) (hp : p.length ≤ MAX_LEN) :
    decodeFull (frameBitsOf p) = .ok (p, 0) := by
  have h := decodeFull_of_majority p hp (frameBitsOf p) (majorityDecode_rep3 _)
  rw [h]
  have hz : flips (frameBitsOf p) (rep3 (bytesToBits (baseBytes p))) = 0 :=
    flips_self _
  rw [hz]
  norm_num

theorem decode_frameBitsOf (p : Payload) (hp : p.length ≤ MAX_LEN) :
    decode (frameBitsOf p) = .ok p := by
  simp [decode, Except.map, decodeFull_frameBitsOf p hp]

theorem decodeFull_near (p : Payload) (hp : p.length ≤ MAX_LEN) (bits : List Bool)
    (hlen : bits.length = frameLen)
    (hfl : flips bits (frameBitsOf p) ≤ correctableCount) :
    ∃ ber : ℚ, decodeFull bits = .ok (p, ber) := by
  have hmaj : majorityDecode bits = bytesToBits (baseBytes p) := by
    refine majorityDecode_of_flips_le _ bits ?_ ?_
    · rw [hlen, ← frameBitsOf_length p hp]; rfl
    · exact hfl
  exact ⟨_, decodeFull_of_majority p hp bits hmaj⟩

theorem decode_near (p : Payload) (hp : p.length ≤ MAX_LEN) (bits : List Bool)
    (hlen : bits.length = frameLen)
    (hfl : flips bits (frameBitsOf p) ≤ correctableCount) :
    decode bits = .ok p := by
  obtain ⟨ber, hb⟩ := decodeFull_near p hp bits hlen hfl
  simp [decode, Except.map, hb]

end PayloadCodec

namespace ConfidenceScorer

theorem clamp01_nonneg (x : ℚ) : 0 ≤ clamp01 x :=
  le_min (by norm_num) (le_max_left 0 x)

theorem clamp01_le_one (x : ℚ) : clamp01 x ≤ 1 := min_le_left _ _

theorem clamp01_mono {x y : ℚ} (h : x ≤ y) : clamp01 x ≤ clamp01 y := by
  unfold clamp01
  exact min_le_min (le_refl 1) (max_le_max (le_refl 0) h)

theorem berCeiling_pos : 0 < berCeiling := by
  unfold berCeiling PayloadCodec.correctableFraction PayloadCodec.correctableCount
    PayloadCodec.frameLen MAX_LEN
  norm_num

theorem score_nonneg (c b : ℚ) : 0 ≤ score c b :=
  mul_nonneg (clamp01_nonneg _) (clamp01_nonneg _)

theorem score_le_one (c b : ℚ) : score c b ≤ 1 :=
  mul_le_one₀ (clamp01_le_one _) (clamp01_nonneg _) (clamp01_le_one _)

theorem score_mono_corr {c c' : ℚ} (b : ℚ) (h : c ≤ c') : score c b ≤ score c' b :=
  mul_le_mul_of_nonneg_right (clamp01_mono h) (clamp01_nonneg _)

theorem score_anti_ber (c : ℚ) {b b' : ℚ} (h : b ≤ b') : score c b' ≤ score c b := by
  refine mul_le_mul_of_nonneg_left (clamp01_mono ?_) (clamp01_nonneg _)
  have hd : b / berCeiling ≤ b' / berCeiling := by
    rw [div_eq_mul_inv, div_eq_mul_inv]
    exact mul_le_mul_of_nonneg_right h (inv_nonneg.mpr (le_of_lt berCeiling_pos))
  linarith

theorem score_calibrated {c b : ℚ} (h : (9 : ℚ) / 10 ≤ score c b) :
    b < PayloadCodec.correctableFraction := by
  have h2 : (9 : ℚ) / 10 ≤ clamp01 (1 - b / berCeiling) := by
    by_contra hcon
    push_neg at hcon
    have := mul_le_mul_of_nonneg_left (le_of_lt hcon) (clamp01_nonneg c)
    have hle : score c b ≤ clamp01 (1 - b / berCeiling) := by
      unfold score
      exact mul_le_of_le_one_left (clamp01_nonneg _) (clamp01_le_one _)
    linarith
  have h3 : (9 : ℚ) / 10 ≤ 1 - b / berCeiling := by
    by_contra hcon
    push_neg at hcon
    have hcl : clamp01 (1 - b / berCeiling) ≤ max 0 (1 - b / berCeiling) :=
      min_le_right _ _
    rcases le_or_lt (1 - b / berCeiling) 0 with hz | hz
    · have : max (0 : ℚ) (1 - b / berCeiling) = 0 := max_eq_left hz
      rw [this] at hcl
      linarith
    · have : max (0 : ℚ) (1 - b / berCeiling) = 1 - b / berCeiling :=
        max_eq_right (le_of_lt hz)
      rw [this] at hcl
      linarith
  have hb : b / berCeiling ≤ 1 / 10 := by linarith
  have hbc := berCeiling_pos
  have : b ≤ berCeiling / 10 := by
    rw [div_le_div_iff₀ hbc (by norm_num)] at hb
    linarith
  have : b < berCeiling := lt_of_le_of_lt this (by linarith)
  simpa [berCeiling] using this

theorem score_one_zero : score 1 0 = 1 := by
  unfold score clamp01
  norm_num

end ConfidenceScorer

namespace SignalTransform

theorem getD_range_map {α : Type} (f : ℕ → α) (m i : ℕ) (d : α) (h : i < m) :
    ((List.range m).map f).getD i d = f i := by
  have hlt : i < ((List.range m).map f).length := by simpa using h
  rw [List.getD_eq_getElem _ _ hlt]
  simp

theorem window_cola (tm : ℕ) (htm : tm < hop) : window tm + window (tm + hop) = 1 := by
  have htm4 : tm < 4 := htm
  unfold window hop win
  rw [if_pos htm4, if_neg (by omega)]
  push_cast
  field_simp
  ring

theorem inverse_forward (xs : List ℚ) : inverse (forward xs) = xs := by
  apply List.ext_getElem
  · simp [inverse, forward]
  · intro t h1 h2
    have ht : t < xs.length := by simpa [inverse, forward] using h1
    have hhop : 0 < hop := by norm_num [hop]
    have htm : t % hop < hop := Nat.mod_lt _ hhop
    have hq : t / hop ≤ xs.length / hop := Nat.div_le_div_right (le_of_lt ht)
    simp only [inverse, List.getElem_map, List.getElem_range]
    have hf1 : (forward xs).frames.getD (t / hop + 1) [] = frameCoeffs xs (t / hop + 1) := by
      simp only [forward]
      exact getD_range_map _ _ _ _ (Nat.lt_succ_of_le (Nat.succ_le_succ hq))
    have hf2 : (forward xs).frames.getD (t / hop) [] = frameCoeffs xs (t / hop) := by
      simp only [forward]
      exact getD_range_map _ _ _ _ (Nat.lt_succ_of_le (Nat.le_succ_of_le hq))
    have hidx1 : ((t / hop + 1 : ℕ) : ℤ) * (hop : ℤ) + ((t % hop : ℕ) : ℤ) - (hop : ℤ)
        = (t : ℤ) := by unfold hop; push_cast; omega
    have hidx2 : ((t / hop : ℕ) : ℤ) * (hop : ℤ) + ((t % hop + hop : ℕ) : ℤ) - (hop : ℤ)
        = (t : ℤ) := by unfold hop; push_cast; omega
    have hsample : sampleOrZero xs (t : ℤ) = xs[t] := by
      unfold sampleOrZero
      rw [if_neg (by omega)]
      have htn : ((t : ℤ)).toNat = t := by omega
      rw [htn, List.getD_eq_getElem _ _ ht]
    have hc1 : coeffAt (forward xs) (t / hop + 1) (t % hop) = window (t % hop) * xs[t] := by
      unfold coeffAt
      rw [hf1]
      unfold frameCoeffs
      rw [getD_range_map _ _ _ _ (by unfold hop at htm; unfold win hop; omega)]
      rw [hidx1, hsample]
    have hc2 : coeffAt (forward xs) (t / hop) (t % hop + hop) =
        window (t % hop + hop) * xs[t] := by
      unfold coeffAt
      rw [hf2]
      unfold frameCoeffs
      rw [getD_range_map _ _ _ _ (by unfold hop at htm; unfold win hop; omega)]
      rw [hidx2, hsample]
    rw [hc1, hc2, ← add_mul, window_cola _ htm, one_mul]

theorem reconstructionError_self (a : List ℚ) : reconstructionError a a = 0 := by
  induction a with
  | nil => rfl
  | cons x a ih =>
      unfold reconstructionError at ih ⊢
      simp only [List.zip_cons_cons, List.map_cons, List.foldr_cons, sub_self, abs_zero, ih]
      simp

end SignalTransform

theorem getD_append_left {α : Type} (a b : List α) (i : ℕ) (d : α) (h : i < a.length) :
    (a ++ b).getD i d = a.getD i d := by
  induction a generalizing i with
  | nil => simp at h
  | cons x a ih =>
      cases i with
      | zero => rfl
      | succ j => exact ih j (by simpa using h)

theorem getD_append_right_len {α : Type} (a b : List α) (i : ℕ) (d : α) :
    (a ++ b).getD (a.length + i) d = b.getD i d := by
  induction a with
  | nil => simp
  | cons x a ih =>
      have hlen : (x :: a).length + i = (a.length + i) + 1 := by simp; omega
      rw [hlen]
      exact ih

theorem matchCount_self (l : List Bool) : matchCount l l = l.length := by
  induction l with
  | nil => rfl
  | cons x l ih => simp [matchCount, List.zipWith] at ih ⊢; omega

theorem embedSamples_length (xs : List ℚ) (p : Payload) (s : ℚ) :
    (embedSamples xs p s).length = xs.length := by
  simp [embedSamples]

theorem embedSamples_chip (xs : List ℚ) (p : Payload) (s : ℚ) (k : ℕ)
    (hk : k < totalChips) (hn : k * chipStride < xs.length) :
    (embedSamples xs p s).getD (k * chipStride) 0 =
      chipValue s ((allChips p).getD k false) := by
  unfold embedSamples
  rw [SignalTransform.getD_range_map _ _ _ _ hn]
  have h1 : k * chipStride % chipStride = 0 := by unfold chipStride; omega
  have h2 : k * chipStride / chipStride = k := by unfold chipStride; omega
  rw [if_pos ⟨h1, by rw [h2]; exact hk⟩, h2]

theorem readChip_embed (xs : List ℚ) (p : Payload) (s : ℚ) (r : ℕ) (hs : 0 < s)
    (k : ℕ) (hk : k < totalChips) (hn : k * chipStride < xs.length) :
    readChip ⟨embedSamples xs p s, r⟩ (k * chipStride) = (allChips p).getD k false := by
  unfold readChip sampleAt
  rw [show (Waveform.mk (embedSamples xs p s) r).samples = embedSamples xs p s from rfl]
  rw [embedSamples_chip xs p s k hk hn]
  have hpos : 0 < s * maskFloor := mul_pos hs (by norm_num [maskFloor])
  cases hb : (allChips p).getD k false with
  | false => simp [chipValue, decide_eq_false_iff_not]; linarith
  | true => simp [chipValue, decide_eq_true_eq]; linarith

theorem sync_read (xs : List ℚ) (p : Payload) (s : ℚ) (r : ℕ) (hs : 0 < s)
    (hlen : minSamples ≤ xs.length) :
    syncBits ⟨embedSamples xs p s, r⟩ 0 = syncCode := by
  unfold syncBits
  apply List.ext_getElem
  · simp
  · intro i hi1 hi2
    simp only [List.getElem_map, List.getElem_range]
    have hisync : i < syncCode.length := hi2
    have hk : i < totalChips := by unfold totalChips; omega
    have hn : i * chipStride < xs.length := by
      unfold minSamples totalChips chipStride at hlen
      unfold chipStride
      unfold totalChips at hk
      omega
    rw [zero_add, readChip_embed xs p s r hs i hk hn]
    unfold allChips
    rw [getD_append_left _ _ _ _ hisync, List.getD_eq_getElem _ _ hisync]

theorem data_read (xs : List ℚ) (p : Payload) (s : ℚ) (r : ℕ) (hs : 0 < s)
    (hp : p.length ≤ MAX_LEN) (hlen : minSamples ≤ xs.length) :
    dataBits ⟨embedSamples xs p s, r⟩ 0 = PayloadCodec.frameBitsOf p := by
  unfold dataBits
  apply List.ext_getElem
  · simp [PayloadCodec.frameBitsOf_length p hp]
  · intro i hi1 hi2
    simp only [List.getElem_map, List.getElem_range]
    have hifr : i < PayloadCodec.frameLen := by simpa using hi1
    have hk : syncCode.length + i < totalChips := by unfold totalChips; omega
    have hn : (syncCode.length + i) * chipStride < xs.length := by
      unfold minSamples totalChips chipStride at hlen
      unfold chipStride
      unfold totalChips at hk
      omega
    rw [zero_add, readChip_embed xs p s r hs _ hk hn]
    unfold allChips
    rw [getD_append_right_len]
    have hlen2 : i < (PayloadCodec.frameBitsOf p).length := by
      rw [PayloadCodec.frameBitsOf_length p hp]; exact hifr
    rw [List.getD_eq_getElem _ _ hlen2]

theorem syncCorr_embed (xs : List ℚ) (p : Payload) (s : ℚ) (r : ℕ) (hs : 0 < s)
    (hlen : minSamples ≤ xs.length) :
    syncCorr ⟨embedSamples xs p s, r⟩ 0 = 1 := by
  unfold syncCorr
  rw [sync_read xs p s r hs hlen, matchCount_self]
  norm_num [syncCode]

theorem tryOffset_embed (xs : List ℚ) (p : Payload) (s : ℚ) (r : ℕ) (hs : 0 < s)
    (hp : p.length ≤ MAX_LEN) (hlen : minSamples ≤ xs.length) :
    tryOffset ⟨embedSamples xs p s, r⟩ 0 = some ⟨p, 1, 0⟩ := by
  have hgate : 0 + totalChips * chipStride ≤
      (Waveform.mk (embedSamples xs p s) r).samples.length := by
    show 0 + totalChips * chipStride ≤ (embedSamples xs p s).length
    rw [embedSamples_length]
    unfold minSamples at hlen
    omega
  unfold tryOffset
  rw [if_pos hgate, syncCorr_embed xs p s r hs hlen,
    if_pos (by norm_num [minCorrelation] : minCorrelation ≤ (1 : ℚ)),
    data_read xs p s r hs hp hlen, PayloadCodec.decodeFull_frameBitsOf p hp]
  show some (⟨p, ConfidenceScorer.score 1 0, 0⟩ : Detection) = some (⟨p, 1, 0⟩ : Detection)
  rw [ConfidenceScorer.score_one_zero]

theorem embed_ok (w : Waveform) (p : Payload) (s : ℚ) (hw : wellFormed w)
    (hp : p.length ≤ MAX_LEN) (hmin : minSamples ≤ w.samples.length)
    (hmax : w.samples.length ≤ maxSamples) :
    embed w p s = .ok ⟨embedSamples w.samples p s, w.sampleRate⟩ := by
  unfold embed
  rw [if_neg (by omega), if_neg (by omega), if_neg (by omega), if_pos hw]

theorem wellFormed_embedded (w : Waveform) (p : Payload) (s : ℚ) (hw : wellFormed w)
    (hs0 : 0 < s) (hs1 : s ≤ 1) :
    wellFormed ⟨embedSamples w.samples p s, w.sampleRate⟩ := by
  refine ⟨hw.1, ?_⟩
  intro y hy
  unfold embedSamples at hy
  rw [List.mem_map] at hy
  obtain ⟨t, htmem, hft⟩ := hy
  rw [List.mem_range] at htmem
  subst hft
  by_cases hc : t % chipStride = 0 ∧ t / chipStride < totalChips
  · rw [if_pos hc]
    cases hb : (allChips p).getD (t / chipStride) false with
    | false =>
        unfold chipValue maskFloor
        rw [if_neg (by simp)]
        constructor <;> nlinarith
    | true =>
        unfold chipValue maskFloor
        rw [if_pos rfl]
        constructor <;> nlinarith
  · rw [if_neg hc]
    rw [List.getD_eq_getElem _ _ htmem]
    exact hw.2 _ (List.getElem_mem _)

theorem detect_ok_of_wellFormed (w : Waveform) (hw : wellFormed w) :
    detect w = .ok (detections w) := by
  unfold detect
  rw [if_pos hw]

set_option maxRecDepth 8000 in
theorem wellFormed_silence : wellFormed silenceWaveform := by decide

theorem syncCorr_silence_zero : syncCorr silenceWaveform 0 = 1 / 2 := by
  unfold syncCorr
  rw [(by decide : syncBits silenceWaveform 0 =
        [false, false, false, false, false, false, false, false])]
  rw [(by decide : matchCount
        [false, false, false, false, false, false, false, false] syncCode = 4)]
  norm_num [syncCode]

set_option maxRecDepth 8000 in
theorem tryOffset_silence_zero : tryOffset silenceWaveform 0 = none := by
  unfold tryOffset
  rw [if_pos (by decide), if_neg ?_]
  rw [syncCorr_silence_zero]
  norm_num [minCorrelation]

theorem detections_silence : detections silenceWaveform = [] := by
  unfold detections
  rw [List.filterMap_eq_nil_iff]
  intro o ho
  rw [List.mem_range] at ho
  rcases Nat.eq_zero_or_pos o with rfl | hpos
  · exact tryOffset_silence_zero
  · have hng : ¬ (o + totalChips * chipStride ≤ silenceWaveform.samples.length) := by
      have hlen : silenceWaveform.samples.length = minSamples := by simp [silenceWaveform]
      rw [hlen]
      unfold minSamples chipStride
      omega
    unfold tryOffset
    rw [if_neg hng]

/-- Claim C1: for every well-formed waveform of at least the minimum
required duration (and within the defensive maximum), every payload of at
most MAX_LEN bytes and every strength in (0, 1], embedding succeeds and
detecting the watermarked waveform yields a Detection whose payload equals
the original payload with confidence at least 9/10. -/
theorem C1_round_trip (w : Waveform) (p : Payload) (s : ℚ)
    (hw : wellFormed w) (hmin : minSamples ≤ w.samples.length)
    (hmax : w.samples.length ≤ maxSamples) (hp : p.length ≤ MAX_LEN)
    (hs0 : 0 < s) (hs1 : s ≤ 1) :
    ∃ wm dets d, embed w p s = .ok wm ∧ detect wm = .ok dets ∧ d ∈ dets ∧
      d.payload = p ∧ (9 : ℚ) / 10 ≤ d.confidence := by
  refine ⟨⟨embedSamples w.samples p s, w.sampleRate⟩,
    detections ⟨embedSamples w.samples p s, w.sampleRate⟩, ⟨p, 1, 0⟩,
    embed_ok w p s hw hp hmin hmax,
    detect_ok_of_wellFormed _ (wellFormed_embedded w p s hw hs0 hs1), ?_, rfl, by norm_num⟩
  unfold detections
  apply List.mem_filterMap.mpr
  refine ⟨0, ?_, tryOffset_embed w.samples p s w.sampleRate hs0 hp hmin⟩
  rw [List.mem_range]
  show 0 < (embedSamples w.samples p s).length
  rw [embedSamples_length]
  have hms : 0 < minSamples := by decide
  omega

set_option maxRecDepth 8000 in
/-- Witness for C1 at a concrete input: the silent minimum-length waveform,
a one-byte payload and strength one half. -/
theorem C1_round_trip_witness :
    ∃ wm dets d, embed silenceWaveform [(5 : Byte)] (1 / 2) = .ok wm ∧
      detect wm = .ok dets ∧ d ∈ dets ∧ d.payload = [(5 : Byte)] ∧
      (9 : ℚ) / 10 ≤ d.confidence :=
  C1_round_trip silenceWaveform [(5 : Byte)] (1 / 2) wellFormed_silence
    (by decide) (by decide) (by decide) (by norm_num) (by norm_num)

/-- Claim C2 (amended): decoding tolerates any corruption of an encoded
frame within the configured correction capacity of the FEC (here one
flipped bit per frame, the guaranteed adversarial capacity of the
repetition-3 code), returning the original payload; and decoding never
fails fatally — on any bit frame it returns either a payload or the soft
`ChecksumMismatch`.  Beyond the capacity a corruption may reach another
valid codeword, in which case decode returns that (wrong) payload rather
than `ChecksumMismatch` (see the counterexample). -/
theorem C2_decode_tolerates_flips :
    (∀ (p : Payload) (bits : List Bool), p.length ≤ MAX_LEN →
      bits.length = PayloadCodec.frameLen →
      PayloadCodec.flips bits (PayloadCodec.frameBitsOf p) ≤ PayloadCodec.correctableCount →
      PayloadCodec.decode bits = .ok p) ∧
    (∀ bits : List Bool, PayloadCodec.decode bits = .error .ChecksumMismatch ∨
      ∃ q : Payload, PayloadCodec.decode bits = .ok q) := by
  constructor
  · intro p bits hp hlen hfl
    exact PayloadCodec.decode_near p hp bits hlen hfl
  · intro bits
    cases hd : PayloadCodec.decodeFull bits with
    | ok qb =>
        right
        exact ⟨qb.1, by simp [PayloadCodec.decode, Except.map, hd]⟩
    | error e =>
        left
        cases e with
        | ChecksumMismatch => simp [PayloadCodec.decode, Except.map, hd]

set_option maxRecDepth 8000 in
/-- Witness for C2 (amended), applying the capacity bound to an
uncorrupted frame of a concrete payload. -/
theorem C2_decode_tolerates_flips_witness :
    PayloadCodec.decode (PayloadCodec.frameBitsOf [(5 : Byte)]) = .ok [(5 : Byte)] :=
  C2_decode_tolerates_flips.1 [(5 : Byte)] (PayloadCodec.frameBitsOf [(5 : Byte)])
    (by decide) (by decide) (by decide)

set_option maxRecDepth 8000 in
/-- Counterexample for C2 as stated: corrupting the encoded frame of the
payload [0] into the encoded frame of the payload [1] flips more bits than
the correction capacity, yet decode returns the wrong payload [1], not
`BitError::ChecksumMismatch`. -/
theorem C2_beyond_capacity_counterexample :
    (PayloadCodec.frameBitsOf [(1 : Byte)]).length =
        (PayloadCodec.frameBitsOf [(0 : Byte)]).length ∧
    PayloadCodec.correctableCount <
      PayloadCodec.flips (PayloadCodec.frameBitsOf [(1 : Byte)])
        (PayloadCodec.frameBitsOf [(0 : Byte)]) ∧
    PayloadCodec.decode (PayloadCodec.frameBitsOf [(1 : Byte)]) = .ok [(1 : Byte)] ∧
    PayloadCodec.decode (PayloadCodec.frameBitsOf [(1 : Byte)]) ≠
      .error .ChecksumMismatch ∧
    ([(1 : Byte)] : Payload) ≠ [(0 : Byte)] := by
  refine ⟨by decide, by decide, by decide, by decide, by decide⟩

/-- Claim C3: embed fails with `InputTooShort` on every waveform shorter
than the minimum needed to carry one FrameBits cycle plus one SyncCode
repeat (given a valid payload, which is checked first), fails with
`PayloadTooLong` on every payload exceeding MAX_LEN, and in both cases
produces no watermarked waveform. -/
theorem C3_embed_boundary :
    (∀ (w : Waveform) (p : Payload) (s : ℚ), MAX_LEN < p.length →
      embed w p s = .error .PayloadTooLong) ∧
    (∀ (w : Waveform) (p : Payload) (s : ℚ), p.length ≤ MAX_LEN →
      w.samples.length < minSamples → embed w p s = .error .InputTooShort) ∧
    (∀ (w : Waveform) (p : Payload) (s : ℚ),
      MAX_LEN < p.length ∨ w.samples.length < minSamples →
      ∀ wm, embed w p s ≠ .ok wm) := by
  have h1 : ∀ (w : Waveform) (p : Payload) (s : ℚ), MAX_LEN < p.length →
      embed w p s = .error .PayloadTooLong := by
    intro w p s h
    unfold embed
    rw [if_pos h]
  have h2 : ∀ (w : Waveform) (p : Payload) (s : ℚ), p.length ≤ MAX_LEN →
      w.samples.length < minSamples → embed w p s = .error .InputTooShort := by
    intro w p s hp h
    unfold embed
    rw [if_neg (by omega), if_pos h]
  refine ⟨h1, h2, ?_⟩
  intro w p s h wm
  rcases h with h | h
  · rw [h1 w p s h]
    exact fun hc => Except.noConfusion hc
  · by_cases hp : MAX_LEN < p.length
    · rw [h1 w p s hp]
      exact fun hc => Except.noConfusion hc
    · rw [h2 w p s (by omega) h]
      exact fun hc => Except.noConfusion hc

/-- Witness for C3 at concrete inputs: a five-byte payload is rejected as
too long, and a one-sample waveform is rejected as too short. -/
theorem C3_embed_boundary_witness :
    embed badWaveform (List.replicate 5 (0 : Byte)) 1 = .error .PayloadTooLong ∧
    embed badWaveform [] 1 = .error .InputTooShort :=
  ⟨C3_embed_boundary.1 badWaveform (List.replicate 5 (0 : Byte)) 1 (by decide),
   C3_embed_boundary.2.1 badWaveform [] 1 (by decide) (by decide)⟩

/-- Claim C4: for every waveform slice x, the SignalTransform round-trip
`inverse(forward(x))` reconstructs x exactly, hence with reconstruction
error bounded by the fixed tolerance epsilon. -/
theorem C4_transform_round_trip (x : List ℚ) :
    SignalTransform.inverse (SignalTransform.forward x) = x ∧
    SignalTransform.reconstructionError x
      (SignalTransform.inverse (SignalTransform.forward x)) ≤ SignalTransform.epsilon := by
  have h := SignalTransform.inverse_forward x
  refine ⟨h, ?_⟩
  rw [h, SignalTransform.reconstructionError_self]
  norm_num [SignalTransform.epsilon]

/-- Claim C5: detect never errors on a well-formed waveform — absence of a
watermark yields the ordinary empty list (witnessed on silence), which is
distinguishable from the `MalformedWaveform` error raised on a malformed
input. -/
theorem C5_no_watermark_is_empty_not_error :
    (∀ w : Waveform, wellFormed w → detect w = .ok (detections w)) ∧
    detect silenceWaveform = .ok [] ∧
    detect badWaveform = .error .MalformedWaveform ∧
    (.error .MalformedWaveform : Except WatermarkError (List Detection)) ≠ .ok [] := by
  refine ⟨fun w hw => detect_ok_of_wellFormed w hw, ?_, ?_,
    fun hc => Except.noConfusion hc⟩
  · rw [detect_ok_of_wellFormed silenceWaveform wellFormed_silence, detections_silence]
  · unfold detect
    rw [if_neg (by decide)]

/-- Witness for C5, applying the no-error property to the concrete silent
waveform. -/
theorem C5_no_watermark_witness :
    detect silenceWaveform = .ok (detections silenceWaveform) :=
  C5_no_watermark_is_empty_not_error.1 silenceWaveform wellFormed_silence

/-- Claim C6: the confidence score is a total function with values in
[0, 1], monotonically increasing in correlation, monotonically decreasing
in bit-error rate, and calibrated: a score of at least 0.9 implies a
bit-error rate below the guaranteed-correctable fraction of the FEC. -/
theorem C6_score_contract :
    (∀ c b : ℚ, 0 ≤ ConfidenceScorer.score c b ∧ ConfidenceScorer.score c b ≤ 1) ∧
    (∀ c c' b : ℚ, c ≤ c' → ConfidenceScorer.score c b ≤ ConfidenceScorer.score c' b) ∧
    (∀ c b b' : ℚ, b ≤ b' → ConfidenceScorer.score c b' ≤ ConfidenceScorer.score c b) ∧
    (∀ c b : ℚ, (9 : ℚ) / 10 ≤ ConfidenceScorer.score c b →
      b < PayloadCodec.correctableFraction) :=
  ⟨fun c b => ⟨ConfidenceScorer.score_nonneg c b, ConfidenceScorer.score_le_one c b⟩,
   fun _ _ b h => ConfidenceScorer.score_mono_corr b h,
   fun c _ _ h => ConfidenceScorer.score_anti_ber c h,
   fun _ _ h => ConfidenceScorer.score_calibrated h⟩

/-- Witness for C6 at concrete scores. -/
theorem C6_score_contract_witness :
    (0 ≤ ConfidenceScorer.score (1 / 2) (1 / 2) ∧
      ConfidenceScorer.score (1 / 2) (1 / 2) ≤ 1) ∧
    ConfidenceScorer.score (1 / 2) 0 ≤ ConfidenceScorer.score 1 0 ∧
    ConfidenceScorer.score 1 (1 / 2) ≤ ConfidenceScorer.score 1 0 ∧
    (0 : ℚ) < PayloadCodec.correctableFraction :=
  ⟨C6_score_contract.1 (1 / 2) (1 / 2),
   C6_score_contract.2.1 (1 / 2) 1 0 (by norm_num),
   C6_score_contract.2.2.1 1 0 (1 / 2) (by norm_num),
   C6_score_contract.2.2.2 1 0
     (by rw [ConfidenceScorer.score_one_zero]; norm_num)⟩

/-- Claim C7: embed is deterministic — two calls with identical inputs
produce identical output waveforms. -/
theorem C7_embed_deterministic (w1 w2 : Waveform) (p1 p2 : Payload) (s1 s2 : ℚ)
    (hw : w1 = w2) (hp : p1 = p2) (hs : s1 = s2) :
    embed w1 p1 s1 = embed w2 p2 s2 := by
  subst hw; subst hp; subst hs; rfl

/-- Witness for C7 at a concrete input. -/
theorem C7_embed_deterministic_witness :
    embed silenceWaveform [(5 : Byte)] 1 = embed silenceWaveform [(5 : Byte)] 1 :=
  C7_embed_deterministic silenceWaveform silenceWaveform [(5 : Byte)] [(5 : Byte)] 1 1
    rfl rfl rfl

/-- Claim C8: embed has no side effect beyond returning the new
watermarked waveform: in the call-store semantics, every waveform already
in the store (in particular the input) is unchanged by the call, and a
successful call only appends the newly produced waveform. -/
theorem C8_embed_no_mutation (store : List Waveform) (i : ℕ) (p : Payload) (s : ℚ) :
    (∀ j, j < store.length → ((embedCall store i p s).1)[j]? = store[j]?) ∧
    (∀ w wm, store[i]? = some w → embed w p s = .ok wm →
      (embedCall store i p s).1 = store ++ [wm] ∧
      (embedCall store i p s).2 = .ok store.length) := by
  cases hsi : store[i]? with
  | none =>
      have hcall : embedCall store i p s = (store, .error .MalformedWaveform) := by
        unfold embedCall
        rw [hsi]
      refine ⟨fun j hj => by rw [hcall], ?_⟩
      intro w wm hw hok
      exact absurd hw (by simp)
  | some w0 =>
      cases hemb : embed w0 p s with
      | ok wm0 =>
          have hcall : embedCall store i p s = (store ++ [wm0], .ok store.length) := by
            unfold embedCall
            rw [hsi]
            show (match embed w0 p s with
              | Except.ok wm => (store ++ [wm], Except.ok store.length)
              | Except.error e => (store, Except.error e)) = _
            rw [hemb]
          constructor
          · intro j hj
            rw [hcall]
            show (store ++ [wm0])[j]? = store[j]?
            rw [List.getElem?_append]
            rw [if_pos hj]
          · intro w wm hw hok
            have hww : w0 = w := by injection hw
            subst hww
            rw [hemb] at hok
            have hwm : wm0 = wm := by injection hok
            subst hwm
            rw [hcall]
            exact ⟨rfl, rfl⟩
      | error e0 =>
          have hcall : embedCall store i p s = (store, .error e0) := by
            unfold embedCall
            rw [hsi]
            show (match embed w0 p s with
              | Except.ok wm => (store ++ [wm], Except.ok store.length)
              | Except.error e => (store, Except.error e)) = _
            rw [hemb]
          refine ⟨fun j hj => by rw [hcall], ?_⟩
          intro w wm hw hok
          have hww : w0 = w := by injection hw
          subst hww
          rw [hemb] at hok
          exact absurd hok (by simp)

/-- Witness for C8 at a concrete store: after a successful embed call the
stored input waveform is unchanged. -/
theorem C8_embed_no_mutation_witness :
    ((embedCall [silenceWaveform] 0 [(5 : Byte)] 1).1)[0]? = some silenceWaveform := by
  rw [(C8_embed_no_mutation [silenceWaveform] 0 [(5 : Byte)] 1).1 0 (by decide)]
  rfl

/-- Claim C9: the only binding function defined or referenced in the
repository Python sources is the zero-argument hello_world; its return
value contains the substrings Wavemark, Python and bindings, and is equal
on every call; neither embed nor detect appears among the references. -/
theorem C9_python_binding_surface :
    (∀ r2 ∈ PyBindings.pythonBindingRefs,
      r2.functionName = PyBindings.nameHelloWorld ∧ r2.argCount = 0) ∧
    (∀ r2 ∈ PyBindings.pythonBindingRefs,
      r2.functionName ≠ PyBindings.nameEmbed ∧ r2.functionName ≠ PyBindings.nameDetect) ∧
    PyBindings.occursIn PyBindings.wavemarkWord (PyBindings.hello_world ()) ∧
    PyBindings.occursIn PyBindings.pythonWord (PyBindings.hello_world ()) ∧
    PyBindings.occursIn PyBindings.bindingsWord (PyBindings.hello_world ()) ∧
    (∀ u v : Unit, PyBindings.hello_world u = PyBindings.hello_world v) :=
  ⟨by decide, by decide, by decide, by decide, by decide, fun u v => rfl⟩

/-- Witness for C9 applied to the first transcribed reference and to two
concrete calls. -/
theorem C9_python_binding_surface_witness :
    PyBindings.hello_world () = PyBindings.hello_world () ∧
    ((⟨PyBindings.fileTestComprehensive, PyBindings.moduleWavemark,
        PyBindings.nameHelloWorld, 0⟩ : PyBindings.BindingRef).functionName =
      PyBindings.nameHelloWorld ∧
     (⟨PyBindings.fileTestComprehensive, PyBindings.moduleWavemark,
        PyBindings.nameHelloWorld, 0⟩ : PyBindings.BindingRef).argCount = 0) :=
  ⟨C9_python_binding_surface.2.2.2.2.2 () (),
   C9_python_binding_surface.1 _ (by decide)⟩

/-- Claim C10: importing the package re-exports every public name of the
compiled extension submodule, sets the version attribute to exactly 0.1.0,
and the package file itself defines nothing beyond the three metadata
strings (in particular no audio operation). -/
theorem C10_package_init :
    (∀ (ext : PyBindings.PyAttrs) (a : String × String), a ∈ ext →
      PyBindings.isPrivateName a.1 = false → a ∈ PyBindings.packageAttrs ext) ∧
    (∀ ext : PyBindings.PyAttrs,
      PyBindings.getAttr (PyBindings.packageAttrs ext) PyBindings.versionKey =
        some PyBindings.versionValue) ∧
    PyBindings.ownDefinitions.map Prod.fst =
      [PyBindings.versionKey, PyBindings.authorKey, PyBindings.descriptionKey] ∧
    PyBindings.nameEmbed ∉ PyBindings.ownDefinitions.map Prod.fst ∧
    PyBindings.nameDetect ∉ PyBindings.ownDefinitions.map Prod.fst := by
  refine ⟨?_, ?_, by decide, by decide, by decide⟩
  · intro ext a ha hpub
    unfold PyBindings.packageAttrs PyBindings.starImport
    apply List.mem_append_left
    rw [List.mem_filter]
    exact ⟨ha, by rw [hpub]; rfl⟩
  · intro ext
    unfold PyBindings.getAttr PyBindings.packageAttrs
    rw [List.reverse_append, List.find?_append]
    rw [(by decide : PyBindings.ownDefinitions.reverse.find?
          (fun a => a.1 == PyBindings.versionKey) =
          some (PyBindings.versionKey, PyBindings.versionValue))]
    rfl

/-- Witness for C10 at concrete module contents. -/
theorem C10_package_init_witness :
    PyBindings.getAttr (PyBindings.packageAttrs []) PyBindings.versionKey =
      some PyBindings.versionValue ∧
    (PyBindings.nameHelloWorld, PyBindings.helloWorldMessage) ∈
      PyBindings.packageAttrs [(PyBindings.nameHelloWorld, PyBindings.helloWorldMessage)] :=
  ⟨C10_package_init.2.1 [],
   C10_package_init.1 [(PyBindings.nameHelloWorld, PyBindings.helloWorldMessage)]
     (PyBindings.nameHelloWorld, PyBindings.helloWorldMessage) (by decide) (by decide)⟩

end Wavemark
